import Mathlib

/-!
Verification development for the RFL-WBC federated-learning coordinator.

The definitions below are a shallow embedding of the two source files
`fltk/core/federator.py` and `fltk/core/distributed/orchestrator.py`:

* `Federator.exec_round` is modelled in several layers: a phase state machine
  for the ordering of broadcast / dispatch / future completion / aggregation,
  a pure function for the malicious-boost substitution pass, a pure fold for
  the adaptive defense controller, and a pure function for the recording tail
  of a round (central evaluation results, diagnostics, ledger append).
* `Federator.run` is modelled as the event trace it produces.
* `Orchestrator.run` / `Orchestrator.run_federated` are modelled as a single
  pass over the pending-task priority queue.

Machine floats of the Python code are modelled as rationals; remote-call
results (client status, dataset size, trained weights, evaluation results)
are inputs to the model, since the learners are external to the coordinator.
-/

namespace RFLWBC

/-!
## Round phase machine (`Federator.exec_round`, federator.py lines 337-468)

The coordinator broadcasts parameters synchronously to every selected client
(lines 366-367), then dispatches the asynchronous training calls
(lines 397-401), then busy-polls `all_futures_done` (lines 403-409) and only
falls through to the aggregation call (line 438) once every future is done.
Future completion (the training callback firing) can interleave arbitrarily
with coordinator steps once the future has been dispatched, so it is a
separate transition enabled in any phase.
-/

inductive Phase where
  | broadcasting
  | dispatching
  | collecting
  | aggregating
  deriving DecidableEq, Repr

/-- State of one `exec_round` execution over `n` selected clients:
the current program point of the coordinator and, per client, whether its
parameter update has been sent, whether its training call has been
dispatched, and whether its training future has completed. -/
structure RState (n : Nat) where
  phase : Phase
  broadcasted : Fin n → Bool
  dispatched : Fin n → Bool
  completed : Fin n → Bool

/-- Start of a round: nothing sent yet, coordinator at the broadcast loop. -/
def initRState (n : Nat) : RState n :=
  { phase := Phase.broadcasting
    broadcasted := fun _ => false
    dispatched := fun _ => false
    completed := fun _ => false }

/-- One step of the round: the coordinator transitions mirror the straight-line
code of `exec_round`; `complete` is the asynchronous firing of a dispatched
future and is enabled in every phase. `beginDispatch` requires the broadcast
loop to have covered every selected client (the loop at lines 366-367 returns
only after messaging each one), and `finishCollect` requires every future to
be done (the guard `all_futures_done` at line 406). -/
inductive RStep {n : Nat} : RState n → RState n → Prop where
  | broadcast (s : RState n) (i : Fin n) :
      s.phase = Phase.broadcasting →
      RStep s { s with broadcasted := Function.update s.broadcasted i true }
  | beginDispatch (s : RState n) :
      s.phase = Phase.broadcasting → (∀ i, s.broadcasted i = true) →
      RStep s { s with phase := Phase.dispatching }
  | dispatch (s : RState n) (i : Fin n) :
      s.phase = Phase.dispatching →
      RStep s { s with dispatched := Function.update s.dispatched i true }
  | complete (s : RState n) (i : Fin n) :
      s.dispatched i = true →
      RStep s { s with completed := Function.update s.completed i true }
  | beginCollect (s : RState n) :
      s.phase = Phase.dispatching → (∀ i, s.dispatched i = true) →
      RStep s { s with phase := Phase.collecting }
  | finishCollect (s : RState n) :
      s.phase = Phase.collecting → (∀ i, s.completed i = true) →
      RStep s { s with phase := Phase.aggregating }

/-- Reachability from the start of the round. -/
def RReachable {n : Nat} (s : RState n) : Prop :=
  Relation.ReflTransGen RStep (initRState n) s

/-- Inductive invariant of the round machine. -/
def RInv {n : Nat} (s : RState n) : Prop :=
  (s.phase ≠ Phase.broadcasting → ∀ i, s.broadcasted i = true) ∧
  ((s.phase = Phase.collecting ∨ s.phase = Phase.aggregating) →
      ∀ i, s.dispatched i = true) ∧
  (∀ i, s.dispatched i = true → s.phase ≠ Phase.broadcasting) ∧
  (∀ i, s.completed i = true → s.dispatched i = true) ∧
  (s.phase = Phase.aggregating → ∀ i, s.completed i = true)

theorem rinv_init (n : Nat) : RInv (initRState n) := by
  refine ⟨?_, ?_, ?_, ?_, ?_⟩ <;> simp [initRState, RInv]

theorem rinv_step {n : Nat} {s t : RState n} (h : RInv s) (hs : RStep s t) :
    RInv t := by
  obtain ⟨h1, h2, h3, h4, h5⟩ := h
  cases hs with
  | broadcast i hp =>
      refine ⟨fun hne => absurd hp hne, h2, ?_, h4, h5⟩
      intro j hj
      exact h3 j hj
  | beginDispatch hp hb =>
      refine ⟨fun _ => hb, ?_, fun _ _ => by simp, h4, ?_⟩
      · intro hc
        exact absurd hc (by simp)
      · intro hagg
        exact absurd hagg (by simp)
  | dispatch i hp =>
      refine ⟨fun _ => h1 (by simp [hp]), ?_, fun _ _ => by simp [hp], ?_, ?_⟩
      · intro hc
        rw [hp] at hc
        exact absurd hc (by simp)
      · intro j hj
        dsimp only at hj ⊢
        rcases eq_or_ne j i with rfl | hne
        · simp
        · rw [Function.update_noteq hne]
          exact h4 j hj
      · intro hagg
        rw [hp] at hagg
        exact absurd hagg (by simp)
  | complete i hd =>
      have hphase : s.phase ≠ Phase.broadcasting := h3 i hd
      refine ⟨fun h j => h1 h j, h2, h3, ?_, ?_⟩
      · intro j hj
        dsimp only at hj ⊢
        rcases eq_or_ne j i with rfl | hne
        · exact hd
        · rw [Function.update_noteq hne] at hj
          exact h4 j hj
      · intro hagg j
        dsimp only
        rcases eq_or_ne j i with rfl | hne
        · simp
        · rw [Function.update_noteq hne]
          exact h5 hagg j
  | beginCollect hp hd =>
      refine ⟨fun _ => h1 (by simp [hp]), fun _ => hd, fun _ _ => by simp, h4, ?_⟩
      intro hagg
      exact absurd hagg (by simp)
  | finishCollect hp hc =>
      exact ⟨fun _ => h1 (by simp [hp]), fun _ => h2 (Or.inl hp), fun _ _ => by simp,
        h4, fun _ => hc⟩

theorem reachable_inv {n : Nat} {s : RState n} (h : RReachable s) : RInv s := by
  induction h with
  | refl => exact rinv_init n
  | tail _ hstep ih => exact rinv_step ih hstep

/-- C1: in every round, the aggregation point is only reached after every
dispatched training future has completed: whenever the round machine is in the
`aggregating` phase, every selected client's future is done, so the weight and
size tables are only read for aggregation after all callbacks have run. -/
theorem c1_no_partial_round_aggregation {n : Nat} (s : RState n)
    (hreach : RReachable s) (hagg : s.phase = Phase.aggregating) (i : Fin n) :
    s.completed i = true :=
  (reachable_inv hreach).2.2.2.2 hagg i

/-- C5: the parameter broadcast completes for every selected client before any
asynchronous training dispatch is issued: in any reachable round state in
which some client's training call has been dispatched, every selected client
has already received the parameter snapshot. -/
theorem c5_broadcast_before_dispatch {n : Nat} (s : RState n)
    (hreach : RReachable s) (i : Fin n) (hd : s.dispatched i = true) (j : Fin n) :
    s.broadcasted j = true :=
  (reachable_inv hreach).1 ((reachable_inv hreach).2.2.1 i hd) j

/-- Round state with one client after the broadcast loop. -/
def wStateB : RState 1 :=
  { phase := Phase.broadcasting
    broadcasted := fun _ => true
    dispatched := fun _ => false
    completed := fun _ => false }

/-- Round state with one client at the start of the dispatch loop. -/
def wStateD : RState 1 :=
  { wStateB with phase := Phase.dispatching }

/-- Round state with one client after the dispatch loop. -/
def wStateD2 : RState 1 :=
  { wStateD with dispatched := fun _ => true }

/-- Round state with one client whose future has completed. -/
def wStateC : RState 1 :=
  { wStateD2 with completed := fun _ => true }

/-- Round state with one client at the completion-poll loop. -/
def wStateCol : RState 1 :=
  { wStateC with phase := Phase.collecting }

/-- Round state with one client at the aggregation call. -/
def wStateAgg : RState 1 :=
  { wStateCol with phase := Phase.aggregating }

theorem update_fin_one (f : Fin 1 → Bool) :
    Function.update f 0 true = fun _ => true := by
  funext j
  rw [Fin.eq_zero j]
  simp

theorem wStateAgg_reachable : RReachable wStateAgg := by
  have h1 : RStep (initRState 1) wStateB := by
    have h := RStep.broadcast (initRState 1) 0 rfl
    simpa [initRState, wStateB, update_fin_one] using h
  have h2 : RStep wStateB wStateD := RStep.beginDispatch wStateB rfl (fun _ => rfl)
  have h3 : RStep wStateD wStateD2 := by
    have h := RStep.dispatch wStateD 0 rfl
    simpa [wStateD, wStateD2, wStateB, update_fin_one] using h
  have h4 : RStep wStateD2 wStateC := by
    have h := RStep.complete wStateD2 0 rfl
    simpa [wStateD2, wStateD, wStateB, wStateC, update_fin_one] using h
  have h5 : RStep wStateC wStateCol := RStep.beginCollect wStateC rfl (fun _ => rfl)
  have h6 : RStep wStateCol wStateAgg := RStep.finishCollect wStateCol rfl (fun _ => rfl)
  exact ((((((Relation.ReflTransGen.refl.tail h1).tail h2).tail h3).tail
    h4).tail h5).tail h6)

/-- Witness for C1 at a concrete one-client round execution. -/
theorem c1_no_partial_round_aggregation_witness : wStateAgg.completed 0 = true :=
  c1_no_partial_round_aggregation wStateAgg wStateAgg_reachable rfl 0

/-- Witness for C5 at a concrete one-client round execution. -/
theorem c5_broadcast_before_dispatch_witness : wStateAgg.broadcasted 0 = true :=
  c5_broadcast_before_dispatch wStateAgg wStateAgg_reachable 0 rfl 0

/-!
## Malicious-boost substitution (`Federator.exec_round`, lines 413 and 426-437)

After the collection barrier, `exec_round` reads `mal_boost` from the config,
collects the names of the selected clients whose `get_client_status` is true
into `mal_name`, and then — only when `mal_boost > 1` and at least one
malicious client was selected — walks the selected clients in order and, for
each benign one, overwrites its `client_weights` and `client_sizes` entries
with a copy of the entries of `mal_name[-1]` (the last flagged client),
decrementing `mal_boost`; the loop breaks as soon as `mal_boost == 1` (the
break test runs after every iteration, benign or not).

A selected client is its reported name plus the adversarial status the
coordinator fetched for it this round; the weight and size dictionaries are
modelled as functions from names. The second component of the result is the
list of names that were substituted (ghost instrumentation; the first
component is exactly the updated dictionaries).
-/

/-- One selected client: reported name and adversarial status. -/
structure SClient where
  name : Nat
  status : Bool
  deriving DecidableEq, Repr

/-- The per-round result dictionaries `client_weights` and `client_sizes`,
keyed by client name. -/
structure Tables (α : Type) where
  weights : Nat → α
  sizes : Nat → Nat

/-- The `mal_name` list built at lines 428-430. -/
def malNames (selected : List SClient) : List Nat :=
  (selected.filter (fun c => c.status)).map SClient.name

/-- The `mal_this_round` counter of lines 358-361. -/
def malThisRound (selected : List SClient) : Nat :=
  (selected.filter (fun c => c.status)).length

/-- Names of the benign selected clients, in selection order. -/
def benignNames (selected : List SClient) : List Nat :=
  (selected.filter (fun c => !c.status)).map SClient.name

/-- Lines 433-434: copy the flagged client's weights and size into a benign
client's slots. -/
def substOne {α : Type} (t : Tables α) (nm malLast : Nat) : Tables α :=
  { weights := Function.update t.weights nm (t.weights malLast)
    sizes := Function.update t.sizes nm (t.sizes malLast) }

/-- The substitution loop of lines 431-437. -/
def malSubstLoop {α : Type} (malLast : Nat) :
    List SClient → Nat → Tables α → Tables α × List Nat
  | [], _, t => (t, [])
  | c :: rest, boost, t =>
      if c.status then
        if boost = 1 then (t, [])
        else malSubstLoop malLast rest boost t
      else
        let t2 := substOne t c.name malLast
        if boost - 1 = 1 then (t2, [c.name])
        else
          let r := malSubstLoop malLast rest (boost - 1) t2
          (r.1, c.name :: r.2)

/-- The whole adversarial-weighting pass of lines 426-437, guard included. -/
def malBoostPass {α : Type} (malBoostCfg : Nat) (selected : List SClient)
    (t : Tables α) : Tables α × List Nat :=
  if 1 < malBoostCfg ∧ 0 < malThisRound selected then
    malSubstLoop ((malNames selected).getLastD 0) selected malBoostCfg t
  else (t, [])

theorem benignNames_cons (c : SClient) (rest : List SClient) :
    benignNames (c :: rest) =
      if c.status then benignNames rest else c.name :: benignNames rest := by
  by_cases hc : c.status <;> simp [benignNames, List.filter_cons, hc]

theorem malSubstLoop_count {α : Type} (malLast : Nat) (l : List SClient)
    (boost : Nat) (t : Tables α) (h2 : 2 ≤ boost) :
    (malSubstLoop malLast l boost t).2.length =
      min (boost - 1) (benignNames l).length := by
  induction l generalizing boost t with
  | nil =>
      simp [malSubstLoop, benignNames]
  | cons c rest ih =>
      by_cases hc : c.status
      · have hb1 : boost ≠ 1 := by omega
        simp only [malSubstLoop, hc, if_true, hb1, if_false]
        rw [ih boost t h2]
        simp [benignNames, hc]
      · by_cases hb2 : boost - 1 = 1
        · simp only [malSubstLoop, hc, Bool.false_eq_true, if_false, hb2, if_true]
          simp only [List.length_singleton, benignNames, List.filter_cons, hc]
          simp only [Bool.not_eq_true] at hc
          simp only [hc, Bool.not_false, if_true, List.map_cons, List.length_cons]
          omega
        · simp only [malSubstLoop, hc, Bool.false_eq_true, if_false, hb2]
          have h2r : 2 ≤ boost - 1 := by omega
          simp only [List.length_cons, ih (boost - 1) _ h2r]
          simp only [benignNames, List.filter_cons, hc]
          simp only [Bool.not_eq_true] at hc
          simp only [hc, Bool.not_false, if_true, List.map_cons, List.length_cons]
          omega

theorem malSubstLoop_subst {α : Type} (malLast : Nat) (l : List SClient)
    (boost : Nat) (t : Tables α) (hml : malLast ∉ benignNames l) :
    (∀ nm ∈ (malSubstLoop malLast l boost t).2,
        nm ∈ benignNames l ∧
        (malSubstLoop malLast l boost t).1.weights nm = t.weights malLast ∧
        (malSubstLoop malLast l boost t).1.sizes nm = t.sizes malLast) ∧
    (∀ nm, nm ∉ (malSubstLoop malLast l boost t).2 →
        (malSubstLoop malLast l boost t).1.weights nm = t.weights nm ∧
        (malSubstLoop malLast l boost t).1.sizes nm = t.sizes nm) := by
  induction l generalizing boost t with
  | nil =>
      simp [malSubstLoop]
  | cons c rest ih =>
      by_cases hc : c.status
      · have hml2 : malLast ∉ benignNames rest := by
          rw [benignNames_cons, if_pos hc] at hml
          exact hml
        by_cases hb1 : boost = 1
        · simp [malSubstLoop, hc, hb1]
        · simp only [malSubstLoop, hc, if_true, hb1, if_false]
          obtain ⟨ha, hb⟩ := ih boost t hml2
          refine ⟨fun nm hnm => ?_, hb⟩
          obtain ⟨hmem, hw, hs⟩ := ha nm hnm
          rw [benignNames_cons, if_pos hc]
          exact ⟨hmem, hw, hs⟩
      · have hbc : benignNames (c :: rest) = c.name :: benignNames rest := by
          rw [benignNames_cons, if_neg hc]
        have hcmem : c.name ∈ benignNames (c :: rest) := by
          rw [hbc]
          exact List.mem_cons_self _ _
        have hcml : c.name ≠ malLast := fun h => hml (h ▸ hcmem)
        have hml2 : malLast ∉ benignNames rest := by
          rw [hbc] at hml
          exact fun h => hml (List.mem_cons_of_mem _ h)
        have ht2w : (substOne t c.name malLast).weights malLast = t.weights malLast := by
          simp [substOne, Function.update_noteq (Ne.symm hcml)]
        have ht2s : (substOne t c.name malLast).sizes malLast = t.sizes malLast := by
          simp [substOne, Function.update_noteq (Ne.symm hcml)]
        by_cases hb2 : boost - 1 = 1
        · simp only [malSubstLoop, hc, Bool.false_eq_true, if_false, hb2, if_true]
          constructor
          · intro nm hnm
            simp only [List.mem_singleton] at hnm
            subst hnm
            refine ⟨hcmem, ?_, ?_⟩ <;> simp [substOne]
          · intro nm hnm
            simp only [List.mem_singleton] at hnm
            constructor <;> simp [substOne, Function.update_noteq hnm]
        · simp only [malSubstLoop, hc, Bool.false_eq_true, if_false, hb2]
          obtain ⟨ha, hb⟩ := ih (boost - 1) (substOne t c.name malLast) hml2
          constructor
          · intro nm hnm
            simp only [List.mem_cons] at hnm
            rcases hnm with rfl | hnm
            · by_cases hin : c.name ∈ (malSubstLoop malLast rest (boost - 1)
                  (substOne t c.name malLast)).2
              · obtain ⟨_, hw, hs⟩ := ha c.name hin
                exact ⟨hcmem, hw.trans ht2w, hs.trans ht2s⟩
              · obtain ⟨hw, hs⟩ := hb c.name hin
                refine ⟨hcmem, ?_, ?_⟩
                · rw [hw]
                  simp [substOne]
                · rw [hs]
                  simp [substOne]
            · obtain ⟨hmem, hw, hs⟩ := ha nm hnm
              refine ⟨?_, hw.trans ht2w, hs.trans ht2s⟩
              rw [hbc]
              exact List.mem_cons_of_mem _ hmem
          · intro nm hnm
            simp only [List.mem_cons, not_or] at hnm
            obtain ⟨hne, hnm⟩ := hnm
            obtain ⟨hw, hs⟩ := hb nm hnm
            rw [hw, hs]
            constructor <;> simp [substOne, Function.update_noteq hne]

theorem getLastD_mem (l : List Nat) (d : Nat) (h : l ≠ []) : l.getLastD d ∈ l := by
  induction l with
  | nil => exact absurd rfl h
  | cons a rest ih =>
      cases rest with
      | nil => simp
      | cons b r2 =>
          have hmem := ih (by simp)
          simpa using Or.inr hmem

theorem malNames_benignNames_disjoint (selected : List SClient)
    (hnodup : (selected.map SClient.name).Nodup) (nm : Nat)
    (hm : nm ∈ malNames selected) (hb : nm ∈ benignNames selected) : False := by
  simp only [malNames, List.mem_map, List.mem_filter] at hm
  simp only [benignNames, List.mem_map, List.mem_filter] at hb
  obtain ⟨c1, ⟨hc1mem, hc1s⟩, rfl⟩ := hm
  obtain ⟨c2, ⟨hc2mem, hc2s⟩, hname⟩ := hb
  have heq : c2 = c1 := List.inj_on_of_nodup_map hnodup hc2mem hc1mem hname
  rw [heq] at hc2s
  rw [hc1s] at hc2s
  simp at hc2s

/-- C2: when the configured malicious-boost factor exceeds 1 and at least one
selected learner is flagged, the adversarial-weighting pass substitutes
exactly min(boost-1, number of benign selected learners) benign entries of the
weight and size tables, each replaced entry is a copy of the last flagged
learner's weights and size, all other entries are unchanged; and when the
boost factor is at most 1 or no selected learner is flagged, the tables are
returned unchanged with no substitution. -/
theorem c2_malicious_boost_substitution {α : Type} (boost : Nat)
    (selected : List SClient) (t : Tables α)
    (hnodup : (selected.map SClient.name).Nodup) :
    (1 < boost → 0 < malThisRound selected →
      ((malBoostPass boost selected t).2.length =
          min (boost - 1) (benignNames selected).length ∧
        (∀ nm ∈ (malBoostPass boost selected t).2,
          nm ∈ benignNames selected ∧
          (malBoostPass boost selected t).1.weights nm =
            t.weights ((malNames selected).getLastD 0) ∧
          (malBoostPass boost selected t).1.sizes nm =
            t.sizes ((malNames selected).getLastD 0)) ∧
        (∀ nm, nm ∉ (malBoostPass boost selected t).2 →
          (malBoostPass boost selected t).1.weights nm = t.weights nm ∧
          (malBoostPass boost selected t).1.sizes nm = t.sizes nm))) ∧
    ((boost ≤ 1 ∨ malThisRound selected = 0) →
      malBoostPass boost selected t = (t, [])) := by
  constructor
  · intro hboost hmal
    have hcond : 1 < boost ∧ 0 < malThisRound selected := ⟨hboost, hmal⟩
    have hpass : malBoostPass boost selected t =
        malSubstLoop ((malNames selected).getLastD 0) selected boost t := by
      rw [malBoostPass, if_pos hcond]
    have hmlen : malNames selected ≠ [] := by
      intro hnil
      rw [malThisRound] at hmal
      have : (malNames selected).length = malThisRound selected := by
        simp [malNames, malThisRound]
      rw [hnil] at this
      simp at this
      omega
    have hmem : (malNames selected).getLastD 0 ∈ malNames selected :=
      getLastD_mem _ 0 hmlen
    have hml : (malNames selected).getLastD 0 ∉ benignNames selected :=
      fun hin => malNames_benignNames_disjoint selected hnodup _ hmem hin
    rw [hpass]
    exact ⟨malSubstLoop_count _ _ _ _ hboost, (malSubstLoop_subst _ _ _ _ hml).1,
      (malSubstLoop_subst _ _ _ _ hml).2⟩
  · intro hneg
    rw [malBoostPass, if_neg (by omega)]

/-- Concrete selection for the C2 witness: five clients, the third flagged. -/
def wSel : List SClient :=
  [⟨1, false⟩, ⟨2, false⟩, ⟨3, true⟩, ⟨4, false⟩, ⟨5, false⟩]

/-- Concrete weight and size tables for the C2 witness. -/
def wTab : Tables Nat :=
  { weights := fun n => 10 * n
    sizes := fun n => n }

/-- Witness for C2: boost 3 with exactly one flagged learner among 5 selected
substitutes exactly 2 benign slots. -/
theorem c2_malicious_boost_substitution_witness :
    (malBoostPass 3 wSel wTab).2.length = 2 := by
  have h := (c2_malicious_boost_substitution 3 wSel wTab (by decide)).1
    (by decide) (by decide)
  exact h.1.trans (by decide)


/-!
## Adaptive defense controller (`Federator.exec_round` lines 388-395 and
467-468, `Federator.defense_controller` lines 490-494)

At the start of each round `exec_round` computes the `start_defense` flag
passed with every training dispatch: it defaults to true, and only when the
`defense_controller` configuration flag is set is it derived from the
countdown `defense_controller_counter` (true and decrement when positive,
false otherwise). At the end of the round, one `FederatorRecord` is appended,
and — only when the configuration flag is set — `defense_controller` compares
the clean test accuracies of the two most recent records and, on a drop
greater than 0.5, arms the countdown to 5, but only if the countdown is
currently zero.

Only the counter and the recorded clean accuracies matter here; records are
kept most recent first, so appending a record is consing its accuracy.
-/

/-- Defense-relevant coordinator state: the Federator field
`defense_controller_counter` and the clean test accuracies of the appended
records, most recent first. -/
structure DState where
  counter : Nat
  records : List ℚ

/-- Lines 491-492: the accuracy-drop test, defined only when more than one
record exists; `records[-1]` is the head and `records[-2]` the second
element. -/
def dropDetected (records : List ℚ) : Bool :=
  match records with
  | a :: b :: _ => decide ((1:ℚ)/2 < b - a)
  | _ => false

/-- Lines 490-494: `Federator.defense_controller`; on a detected drop the
counter is set to 5 only when it is currently 0, otherwise kept. -/
def defense_controller (s : DState) : DState :=
  if dropDetected s.records then
    { s with counter := if s.counter = 0 then 5 else s.counter }
  else s

/-- Lines 388-395: the `start_defense` flag and counter update at dispatch
time. The default is true; the counter test only happens when the controller
is enabled. -/
def defenseDispatch (enabled : Bool) (counter : Nat) : Bool × Nat :=
  if enabled then
    if counter > 0 then (true, counter - 1) else (false, counter)
  else (true, counter)

/-- The defense-relevant part of one `exec_round` call: compute the dispatch
flag, append this round record (line 464), then run the controller when
enabled (lines 467-468). Returns the flag sent with this round dispatches
and the new state. -/
def defenseRound (enabled : Bool) (s : DState) (acc : ℚ) : Bool × DState :=
  let fd := defenseDispatch enabled s.counter
  let s2 : DState := { counter := fd.2, records := acc :: s.records }
  (fd.1, if enabled then defense_controller s2 else s2)

/-- The dispatch flag of round `r` and the defense state after rounds
`0..r`, for an experiment whose recorded clean test accuracy at round `i`
is `accs i`. The Federator constructor initialises the counter to 0
(line 74) and the record list to empty. -/
def defenseExec (enabled : Bool) (accs : Nat → ℚ) : Nat → Bool × DState
  | 0 => defenseRound enabled ⟨0, []⟩ (accs 0)
  | r + 1 => defenseRound enabled (defenseExec enabled accs r).2 (accs (r + 1))

theorem defense_controller_records (s : DState) :
    (defense_controller s).records = s.records := by
  rw [defense_controller]
  split <;> rfl

theorem defenseExec_records_head (e : Bool) (accs : Nat → ℚ) (r : Nat) :
    ∃ tl, (defenseExec e accs r).2.records = accs r :: tl := by
  cases r with
  | zero =>
      refine ⟨[], ?_⟩
      cases e <;> simp [defenseExec, defenseRound, defense_controller_records]
  | succ r' =>
      refine ⟨(defenseExec e accs r').2.records, ?_⟩
      cases e <;> simp [defenseExec, defenseRound, defense_controller_records]

theorem defenseExec_flag_succ (accs : Nat → ℚ) (r : Nat) :
    (defenseExec true accs (r + 1)).1 =
      decide (0 < (defenseExec true accs r).2.counter) := by
  rw [defenseExec, defenseRound, defenseDispatch]
  by_cases h : 0 < (defenseExec true accs r).2.counter <;> simp [h]

theorem defenseExec_counter_succ (accs : Nat → ℚ) (r : Nat) :
    (defenseExec true accs (r + 1)).2.counter =
      (if ((1:ℚ)/2 < accs r - accs (r + 1) ∧
            (defenseExec true accs r).2.counter - 1 = 0) then 5
       else (defenseExec true accs r).2.counter - 1) := by
  obtain ⟨tl, htl⟩ := defenseExec_records_head true accs r
  rw [defenseExec, defenseRound, defenseDispatch, defense_controller]
  simp only [htl, dropDetected, if_true, decide_eq_true_eq]
  split_ifs <;> simp_all <;> try omega
  all_goals linarith

theorem defenseExec_zero (accs : Nat → ℚ) :
    (defenseExec true accs 0).1 = false ∧
      (defenseExec true accs 0).2.counter = 0 := by
  simp [defenseExec, defenseRound, defenseDispatch, defense_controller, dropDetected]

/-- C3 (amended): with the controller enabled, whenever the most recent
recorded clean accuracy drops by more than 0.5 below the previous one AND no
defense window is currently active (the counter entering the round is at most
1, hence 0 after the dispatch decrement), the 5-round window is armed: the
counter is set to 5, the defense flag is true on dispatch in exactly the 5
subsequent rounds, and — provided no further drop is detected in the last of
those rounds — false again in the round after the window. A drop detected
while a window is active does not re-arm or extend the window. -/
theorem c3_defense_window_armed (accs : Nat → ℚ) (r : Nat) (hr : 1 ≤ r)
    (hdrop : (1:ℚ)/2 < accs (r - 1) - accs r)
    (hquiet : (defenseExec true accs (r - 1)).2.counter ≤ 1) :
    (defenseExec true accs r).2.counter = 5 ∧
    (∀ k, 1 ≤ k → k ≤ 5 → (defenseExec true accs (r + k)).1 = true) ∧
    (¬((1:ℚ)/2 < accs (r + 4) - accs (r + 5)) →
      (defenseExec true accs (r + 6)).1 = false) := by
  obtain ⟨n, rfl⟩ : ∃ n, r = n + 1 := ⟨r - 1, by omega⟩
  have hd : (1:ℚ)/2 < accs n - accs (n + 1) := by simpa using hdrop
  have hq : (defenseExec true accs n).2.counter ≤ 1 := by simpa using hquiet
  have h5 : (defenseExec true accs (n + 1)).2.counter = 5 := by
    rw [defenseExec_counter_succ]
    exact if_pos ⟨hd, by omega⟩
  have e2 : n + 1 + 1 = n + 2 := rfl
  have e3 : n + 2 + 1 = n + 3 := rfl
  have e4 : n + 3 + 1 = n + 4 := rfl
  have e5 : n + 4 + 1 = n + 5 := rfl
  have e6 : n + 5 + 1 = n + 6 := rfl
  have e7 : n + 6 + 1 = n + 7 := rfl
  have h4 : (defenseExec true accs (n + 2)).2.counter = 4 := by
    rw [← e2, defenseExec_counter_succ, h5]
    simp
  have h3 : (defenseExec true accs (n + 3)).2.counter = 3 := by
    rw [← e3, defenseExec_counter_succ, h4]
    simp
  have h2 : (defenseExec true accs (n + 4)).2.counter = 2 := by
    rw [← e4, defenseExec_counter_succ, h3]
    simp
  have h1 : (defenseExec true accs (n + 5)).2.counter = 1 := by
    rw [← e5, defenseExec_counter_succ, h2]
    simp
  refine ⟨h5, ?_, ?_⟩
  · intro k hk1 hk5
    interval_cases k
    · rw [defenseExec_flag_succ, h5]
      rfl
    · rw [show n + 1 + 2 = n + 2 + 1 from rfl, defenseExec_flag_succ, h4]
      rfl
    · rw [show n + 1 + 3 = n + 3 + 1 from rfl, defenseExec_flag_succ, h3]
      rfl
    · rw [show n + 1 + 4 = n + 4 + 1 from rfl, defenseExec_flag_succ, h2]
      rfl
    · rw [show n + 1 + 5 = n + 5 + 1 from rfl, defenseExec_flag_succ, h1]
      rfl
  · intro hnod
    have h0 : (defenseExec true accs (n + 6)).2.counter = 0 := by
      rw [← e6, defenseExec_counter_succ, h1]
      have : ¬((1:ℚ)/2 < accs (n + 5) - accs (n + 5 + 1) ∧ 1 - 1 = 0) := by
        rw [e6]
        intro hand
        exact hnod (by simpa using hand.1)
      rw [if_neg this]
    rw [show n + 1 + 6 = n + 6 + 1 from rfl, defenseExec_flag_succ, h0]
    rfl

/-- Clean-accuracy trace refuting C3 as stated: drops after rounds 1 and 3;
the round-3 drop falls inside the window armed by the round-1 drop. -/
def c3Accs : Nat → ℚ := fun r => [10, 9, 9, 8].getD r 8

/-- Counterexample to C3 as stated: with accuracies 10, 9, 9, 8, 8, ... a
drop of more than 0.5 is recorded between rounds 2 and 3, yet the dispatch
flag is false at round 7, which is within the 5 subsequent rounds 4..8 — the
drop arrived while the window armed at round 1 was active, and did not arm a
fresh 5-round window. -/
theorem c3_defense_window_counterexample :
    ((1:ℚ)/2 < c3Accs 2 - c3Accs 3) ∧ (defenseExec true c3Accs 7).1 = false := by
  have hc0 : (defenseExec true c3Accs 0).2.counter = 0 := (defenseExec_zero c3Accs).2
  have hc1 : (defenseExec true c3Accs 1).2.counter = 5 := by
    have h := defenseExec_counter_succ c3Accs 0
    rw [hc0] at h
    norm_num [c3Accs] at h
    exact h
  have hc2 : (defenseExec true c3Accs 2).2.counter = 4 := by
    have h := defenseExec_counter_succ c3Accs 1
    rw [hc1] at h
    norm_num [c3Accs] at h
    exact h
  have hc3 : (defenseExec true c3Accs 3).2.counter = 3 := by
    have h := defenseExec_counter_succ c3Accs 2
    rw [hc2] at h
    norm_num [c3Accs] at h
    exact h
  have hc4 : (defenseExec true c3Accs 4).2.counter = 2 := by
    have h := defenseExec_counter_succ c3Accs 3
    rw [hc3] at h
    norm_num [c3Accs] at h
    exact h
  have hc5 : (defenseExec true c3Accs 5).2.counter = 1 := by
    have h := defenseExec_counter_succ c3Accs 4
    rw [hc4] at h
    norm_num [c3Accs] at h
    exact h
  have hc6 : (defenseExec true c3Accs 6).2.counter = 0 := by
    have h := defenseExec_counter_succ c3Accs 5
    rw [hc5] at h
    norm_num [c3Accs] at h
    exact h
  constructor
  · norm_num [c3Accs]
  · rw [show (7:Nat) = 6 + 1 from rfl, defenseExec_flag_succ, hc6]
    rfl

/-- Accuracy trace for the C3 witness: a single drop after round 1. -/
def wAccs : Nat → ℚ := fun r => [10, 9].getD r 9

/-- Witness for the amended C3 at a concrete trace: the drop between rounds 0
and 1 arms the window and the flag is true at round 2. -/
theorem c3_defense_window_armed_witness : (defenseExec true wAccs 2).1 = true := by
  have hq : (defenseExec true wAccs 0).2.counter ≤ 1 := by
    rw [(defenseExec_zero wAccs).2]
    omega
  have h := (c3_defense_window_armed wAccs 1 (by norm_num)
    (by norm_num [wAccs]) hq).2.1 1 (by norm_num) (by norm_num)
  exact h

/-- C10: when the defense-controller configuration flag is disabled, the
defense-active flag sent with every training dispatch is unconditionally
true in every round, regardless of the accuracy history. -/
theorem c10_defense_flag_true_when_disabled (accs : Nat → ℚ) (r : Nat) :
    (defenseExec false accs r).1 = true := by
  cases r <;> simp [defenseExec, defenseRound, defenseDispatch]


/-!
## Client selection (`Federator.exec_round` lines 349-351)

The coordinator reseeds the numpy global RNG from the round index
(`np.random.seed(com_round_id)`) and then calls `random_selection(clients,
clients_per_round)` from `fltk.strategy`. The body of `random_selection` is
not under `src/`; it is modelled from the spec, which states that `select`
returns an ordered sequence of exactly `k` distinct learners sampled without
replacement, with the seed derived deterministically from the round index.
The model below is a seeded without-replacement draw: repeatedly pick an
index of the remaining pool from the current RNG state and remove that
element, stepping the RNG state with a linear congruential update. -/

/-- Modelled from the spec: one step of the pseudo-random number generator
backing selection (the concrete generator is numpy internal state, external
to the repository; any deterministic state update fits the spec). -/
def lcg (s : Nat) : Nat := (1103515245 * s + 12345) % 4294967296

/-- Modelled from the spec: a `k`-element without-replacement draw from the
pool, driven by the RNG state `s`. -/
def draw {α : Type} (s : Nat) : Nat → List α → List α
  | 0, _ => []
  | _ + 1, [] => []
  | k + 1, x :: xs =>
      let pool := x :: xs
      let i := s % pool.length
      pool.getD i x :: draw (lcg s) k (pool.eraseIdx i)

/-- Modelled from the spec: `random_selection` of `fltk.strategy` (not under
`src/`) — an ordered sequence of `k` distinct learners sampled without
replacement from the registry, determined by the RNG state. -/
def random_selection {α : Type} (pool : List α) (k : Nat) (seed : Nat) : List α :=
  draw seed k pool

theorem draw_length {α : Type} (s k : Nat) (pool : List α) :
    (draw s k pool).length = min k pool.length := by
  induction k generalizing s pool with
  | zero => simp [draw]
  | succ k ih =>
      cases pool with
      | nil => simp [draw]
      | cons x xs =>
          rw [draw]
          simp only [List.length_cons]
          rw [ih]
          have hlt : s % (x :: xs).length < (x :: xs).length :=
            Nat.mod_lt _ (by simp)
          rw [List.length_eraseIdx]
          simp only [List.length_cons] at hlt ⊢
          rw [if_pos hlt]
          omega

theorem draw_subset {α : Type} (s k : Nat) (pool : List α) :
    ∀ y ∈ draw s k pool, y ∈ pool := by
  induction k generalizing s pool with
  | zero => simp [draw]
  | succ k ih =>
      cases pool with
      | nil => simp [draw]
      | cons x xs =>
          intro y hy
          rw [draw] at hy
          simp only [List.mem_cons] at hy
          rcases hy with rfl | hy
          · have hlt : s % (x :: xs).length < (x :: xs).length :=
              Nat.mod_lt _ (by simp)
            rw [List.getD_eq_getElem _ _ hlt]
            exact List.getElem_mem hlt
          · exact (List.eraseIdx_sublist _ _).subset (ih (lcg s) _ y hy)

theorem draw_nodup {α : Type} (s k : Nat) (pool : List α) (h : pool.Nodup) :
    (draw s k pool).Nodup := by
  induction k generalizing s pool with
  | zero => simp [draw]
  | succ k ih =>
      cases pool with
      | nil => simp [draw]
      | cons x xs =>
          rw [draw]
          have hlt : s % (x :: xs).length < (x :: xs).length :=
            Nat.mod_lt _ (by simp)
          have herased : ((x :: xs).eraseIdx (s % (x :: xs).length)).Nodup :=
            (List.eraseIdx_sublist _ _).nodup h
          refine List.Nodup.cons ?_ (ih (lcg s) _ herased)
          intro hmem
          have h2 := draw_subset (lcg s) k _ _ hmem
          rw [List.getD_eq_getElem _ _ hlt] at h2
          rw [List.mem_eraseIdx_iff_getElem] at h2
          obtain ⟨j, hj, hne, heq⟩ := h2
          exact hne ((List.Nodup.getElem_inj_iff h).mp heq)

/-- Modelled from the spec: `np.random.seed(com_round_id)` (line 350)
replaces the global RNG state with a state derived from the round index
alone. -/
def npSeed (round : Nat) : Nat := round

/-- Lines 349-351 of `exec_round`: the global RNG state `prior` from before
the round is discarded by the reseeding, and the selection is drawn from the
round-derived state. -/
def exec_round_selection {α : Type} (prior : Nat) (clients : List α)
    (k : Nat) (round : Nat) : List α :=
  random_selection clients k (npSeed round)

/-- C4: for a registered population of distinct learners and selection size
`k` not exceeding the population size, the per-round selection returns
exactly `k` distinct learners, and two selection runs with the same round
index and population — regardless of the RNG state left behind by earlier
activity — return the identical subset. -/
theorem c4_selection_deterministic_k_distinct {α : Type} (clients : List α)
    (k round prior1 prior2 : Nat) (hk : k ≤ clients.length)
    (hnodup : clients.Nodup) :
    (exec_round_selection prior1 clients k round).length = k ∧
    (exec_round_selection prior1 clients k round).Nodup ∧
    exec_round_selection prior1 clients k round =
      exec_round_selection prior2 clients k round := by
  refine ⟨?_, draw_nodup _ _ _ hnodup, rfl⟩
  rw [exec_round_selection, random_selection, draw_length]
  omega

/-- Witness for C4 with four registered learners, selection size 2, round 7,
and two different prior RNG states. -/
theorem c4_selection_deterministic_k_distinct_witness :
    (exec_round_selection 999 [10, 20, 30, 40] 2 7).length = 2 :=
  (c4_selection_deterministic_k_distinct [10, 20, 30, 40] 2 7 999 0
    (by decide) (by decide)).1


/-!
## Experiment loop and ledger flush (`Federator.run` lines 159-191,
`Federator.save_data` lines 193-201)

After setup, `run` executes `exec_round(communication_round)` for
`communication_round in range(config.rounds)` and afterwards calls
`save_data` exactly once, which saves the coordinator `DataContainer` and
then each client one. The round bodies are modelled elsewhere; here only
the event order matters.
-/

/-- Observable events of `Federator.run` (lines 187-191) and
`Federator.save_data` (lines 193-201): round executions and ledger flushes. -/
inductive RunEvent where
  | execRound (r : Nat)
  | flushFederator
  | flushClient (name : Nat)
  deriving DecidableEq, Repr

/-- Whether an event is a round execution. -/
def RunEvent.isExec : RunEvent → Bool
  | .execRound _ => true
  | _ => false

/-- Lines 193-201: `save_data` flushes the coordinator stream and then each
registered client stream, in registration order. -/
def save_data (clients : List Nat) : List RunEvent :=
  RunEvent.flushFederator :: clients.map RunEvent.flushClient

/-- Lines 187-191 of `run`: `exec_round` for each round index of
`range(config.rounds)` in order, then the single `save_data` call. -/
def runTrace (rounds : Nat) (clients : List Nat) : List RunEvent :=
  (List.range rounds).map RunEvent.execRound ++ save_data clients

/-- C7: the main loop executes exactly the configured number of rounds, with
round indices 0..rounds-1 in increasing order and no flush among them (the
first `rounds` events are exactly the round executions in index order), and
only after the last round is the ledger flushed — once for the coordinator
stream and exactly once for every registered learner stream. -/
theorem c7_run_loop_and_final_flush (rounds : Nat) (clients : List Nat)
    (hnodup : clients.Nodup) :
    (runTrace rounds clients).take rounds =
      (List.range rounds).map RunEvent.execRound ∧
    (runTrace rounds clients).drop rounds =
      RunEvent.flushFederator :: clients.map RunEvent.flushClient ∧
    (runTrace rounds clients).count RunEvent.flushFederator = 1 ∧
    (∀ c ∈ clients,
      (runTrace rounds clients).count (RunEvent.flushClient c) = 1) := by
  have hlen : ((List.range rounds).map RunEvent.execRound).length = rounds := by
    simp
  refine ⟨?_, ?_, ?_, ?_⟩
  · rw [runTrace, List.take_left' hlen]
  · rw [runTrace, List.drop_left' hlen]
    rfl
  · rw [runTrace, List.count_append, save_data]
    rw [List.count_cons_self]
    have h1 : (List.count RunEvent.flushFederator
        ((List.range rounds).map RunEvent.execRound)) = 0 := by
      rw [List.count_eq_zero]
      intro hmem
      simp only [List.mem_map] at hmem
      obtain ⟨r, _, heq⟩ := hmem
      exact RunEvent.noConfusion heq
    have h2 : (List.count RunEvent.flushFederator
        (clients.map RunEvent.flushClient)) = 0 := by
      rw [List.count_eq_zero]
      intro hmem
      simp only [List.mem_map] at hmem
      obtain ⟨r, _, heq⟩ := hmem
      exact RunEvent.noConfusion heq
    omega
  · intro c hc
    rw [runTrace, List.count_append, save_data]
    have h1 : (List.count (RunEvent.flushClient c)
        ((List.range rounds).map RunEvent.execRound)) = 0 := by
      rw [List.count_eq_zero]
      intro hmem
      simp only [List.mem_map] at hmem
      obtain ⟨r, _, heq⟩ := hmem
      exact RunEvent.noConfusion heq
    have h2 : (List.count (RunEvent.flushClient c)
        (RunEvent.flushFederator :: clients.map RunEvent.flushClient)) = 1 := by
      rw [List.count_cons_of_ne (by intro h; exact RunEvent.noConfusion h)]
      rw [List.count_map_of_injective _ _ (fun a b h => by injection h) c]
      exact List.count_eq_one_of_mem hnodup hc
    omega

/-- Witness for C7: two rounds, two registered learners. -/
theorem c7_run_loop_and_final_flush_witness :
    (runTrace 2 [5, 6]).count (RunEvent.flushClient 6) = 1 :=
  (c7_run_loop_and_final_flush 2 [5, 6] (by decide)).2.2.2 6 (by decide)


/-!
## Orchestrator scheduling pass (`Orchestrator.run` lines 81-131,
`Orchestrator.run_federated` lines 133-197)

Arrivals are converted to tasks and put on the `pending_tasks` priority
queue; the inner loop takes a task, prepares and registers per-role config
maps (federated variant), constructs and submits the cluster job, appends
the task to `deployed_tasks`, and then calls `self.stop()` and `return`,
exiting the whole loop after a single task. The priority queue itself and
the task ordering live outside `src/` and are modelled from the spec
(priority, tie-break by arrival order); the loop body is modelled from the
source.
-/

/-- A federated arrival task as enqueued by `Orchestrator.run_federated`
(orchestrator.py lines 165-173): unique identifier, queue priority, arrival
order (the priority-queue tie-break, modelled from the spec since the task
dataclass is not under `src/`), and the learner roles of its `type_map`. -/
structure FedTask where
  id : Nat
  priority : Nat
  arrival : Nat
  roles : List Nat
  deriving DecidableEq, Repr

/-- Modelled from the spec: the pending-task priority-queue order — lower
priority value first, ties broken by arrival order. -/
def taskLE (a b : FedTask) : Bool :=
  decide (a.priority < b.priority ∨ (a.priority = b.priority ∧ a.arrival ≤ b.arrival))

/-- Modelled from the spec: `PriorityQueue.get` — removes and returns the
least task of the queue under `taskLE`; `none` on an empty queue. -/
def pqGet : List FedTask → Option (FedTask × List FedTask)
  | [] => none
  | t :: ts =>
      match pqGet ts with
      | none => some (t, [])
      | some (u, rest) => if taskLE t u then some (t, ts) else some (u, t :: rest)

theorem taskLE_refl (a : FedTask) : taskLE a a = true := by
  simp [taskLE]

theorem taskLE_total (a b : FedTask) (h : ¬taskLE a b = true) : taskLE b a = true := by
  simp only [taskLE, decide_eq_true_eq] at h ⊢
  omega

theorem taskLE_trans (a b c : FedTask) (h1 : taskLE a b = true)
    (h2 : taskLE b c = true) : taskLE a c = true := by
  simp only [taskLE, decide_eq_true_eq] at h1 h2 ⊢
  omega

theorem pqGet_nil_iff (l : List FedTask) : pqGet l = none ↔ l = [] := by
  cases l with
  | nil => simp [pqGet]
  | cons t ts =>
      simp only [pqGet]
      constructor
      · intro h
        cases hrec : pqGet ts with
        | none => rw [hrec] at h; exact absurd h (by simp)
        | some p =>
            rw [hrec] at h
            obtain ⟨u, rest⟩ := p
            by_cases hle : taskLE t u = true <;> simp [hle] at h
      · intro h
        exact absurd h (by simp)

theorem pqGet_min (l : List FedTask) (u : FedTask) (rest : List FedTask)
    (h : pqGet l = some (u, rest)) :
    u ∈ l ∧ (∀ v ∈ l, taskLE u v = true) ∧ l.Perm (u :: rest) := by
  induction l generalizing u rest with
  | nil => simp [pqGet] at h
  | cons t ts ih =>
      rw [pqGet] at h
      cases hrec : pqGet ts with
      | none =>
          rw [hrec] at h
          have hts : ts = [] := (pqGet_nil_iff ts).mp hrec
          simp only [Option.some.injEq, Prod.mk.injEq] at h
          obtain ⟨rfl, rfl⟩ := h
          subst hts
          exact ⟨List.mem_singleton_self _, by
            intro v hv
            rw [List.mem_singleton] at hv
            subst hv
            exact taskLE_refl _, by simp⟩
      | some p =>
          obtain ⟨u', rest'⟩ := p
          rw [hrec] at h
          dsimp only at h
          obtain ⟨hmem', hmin', hperm'⟩ := ih u' rest' hrec
          by_cases hle : taskLE t u' = true
          · rw [if_pos hle] at h
            simp only [Option.some.injEq, Prod.mk.injEq] at h
            obtain ⟨rfl, rfl⟩ := h
            refine ⟨List.mem_cons_self _ _, ?_, List.Perm.refl _⟩
            intro v hv
            rcases List.mem_cons.mp hv with rfl | hv
            · exact taskLE_refl _
            · exact taskLE_trans _ _ _ hle (hmin' v hv)
          · rw [if_neg hle] at h
            simp only [Option.some.injEq, Prod.mk.injEq] at h
            obtain ⟨rfl, rfl⟩ := h
            refine ⟨List.mem_cons_of_mem _ hmem', ?_, ?_⟩
            · intro v hv
              rcases List.mem_cons.mp hv with rfl | hv
              · exact taskLE_total _ _ hle
              · exact hmin' v hv
            · exact (hperm'.cons t).trans (List.Perm.swap _ _ _)

/-- Cluster-facing calls issued while deploying one federated task:
`__create_config_maps` registers one configuration artifact per learner role
(lines 179-182), and `__client.create` submits the job (line 185). -/
inductive OrchEvent where
  | registerConfig (task : Nat) (role : Nat)
  | submitJob (task : Nat)
  deriving DecidableEq, Repr

/-- Outcome of one pass of the inner scheduling loop of `run_federated`:
the cluster calls issued, the tasks deployed, and the still-pending queue. -/
structure OrchResult where
  events : List OrchEvent
  deployed : List Nat
  pending : List FedTask
  deriving DecidableEq, Repr

/-- Lines 175-192 of `Orchestrator.run_federated`: when the pending queue is
nonempty, dequeue one task, generate and register its per-role configuration
artifacts, submit the job, append it to `deployed_tasks`, and then `stop()`
and `return` — the loop body unconditionally exits `run_federated` after the
first task, leaving the rest of the queue pending. -/
def run_federated_pass (pending : List FedTask) : OrchResult :=
  match pqGet pending with
  | none => ⟨[], [], []⟩
  | some (t, rest) =>
      ⟨t.roles.map (OrchEvent.registerConfig t.id) ++ [OrchEvent.submitJob t.id],
        [t.id], rest⟩

/-- C8 (amended): one pass of the scheduling loop dequeues exactly one task
— the least-priority one, ties broken by arrival order — materializes
exactly one cluster job for it, registers its per-learner-role configuration
artifacts strictly before submitting the job, and leaves every other task
pending (the loop exits after one task instead of draining the queue). -/
theorem c8_one_task_per_pass (pending : List FedTask) (t : FedTask)
    (rest : List FedTask) (h : pqGet pending = some (t, rest)) :
    (∀ v ∈ pending, taskLE t v = true) ∧
    pending.Perm (t :: (run_federated_pass pending).pending) ∧
    (run_federated_pass pending).deployed = [t.id] ∧
    (run_federated_pass pending).events =
      t.roles.map (OrchEvent.registerConfig t.id) ++ [OrchEvent.submitJob t.id] := by
  obtain ⟨hmem, hmin, hperm⟩ := pqGet_min pending t rest h
  have hr : run_federated_pass pending =
      ⟨t.roles.map (OrchEvent.registerConfig t.id) ++ [OrchEvent.submitJob t.id],
        [t.id], rest⟩ := by
    rw [run_federated_pass, h]
  rw [hr]
  exact ⟨hmin, hperm, rfl, rfl⟩

/-- First task for the C8 counterexample: higher queue priority. -/
def cTask1 : FedTask := ⟨100, 1, 0, [0, 1]⟩

/-- Second task for the C8 counterexample. -/
def cTask2 : FedTask := ⟨200, 2, 1, [0, 1]⟩

/-- Counterexample to C8 as stated: with two pending tasks, the pass deploys
only the first and leaves the other pending — the loop does not drain the
queue until it is empty. -/
theorem c8_one_task_per_pass_counterexample :
    (run_federated_pass [cTask1, cTask2]).pending = [cTask2] ∧
    (run_federated_pass [cTask1, cTask2]).deployed = [cTask1.id] := by
  decide

/-- Witness for the amended C8: both roles of the dequeued task get their
configuration artifact registered before its job submission. -/
theorem c8_one_task_per_pass_witness :
    (run_federated_pass [cTask1, cTask2]).events =
      [OrchEvent.registerConfig 100 0, OrchEvent.registerConfig 100 1,
        OrchEvent.submitJob 100] := by
  have h := (c8_one_task_per_pass [cTask1, cTask2] cTask1 [cTask2] (by decide)).2.2.2
  rw [h]
  decide


/-!
## Round recording tail and benign diagnostics (`Federator.exec_round`
lines 411-468, `client_aggregate_hessian` lines 213-228,
`client_aggregate_regular_loss` lines 230-246)

After the collection barrier, `exec_round` runs the malicious-boost pass,
calls the configured aggregation method on the weight/size tables, applies
the updated model, evaluates it centrally on the clean test set and on the
adversarial set, builds one `FederatorRecord`, computes the benign Hessian
and regular-loss averages, and appends the record to the coordinator ledger.

The learners, the aggregation strategy and the evaluation kernels are
external: a selected client this round is its name, fetched adversarial
status, and the values its remote calls return; the aggregation strategy and
the two evaluation routines are opaque function inputs. Python float results
are rationals. The two diagnostic averages divide without a guard; the
Python `ZeroDivisionError` is modelled as `none` / an `Except.error`
terminating the round before the ledger append.
-/

/-- Per-round data of one selected client: its name, the adversarial status
fetched this round, the trained weights its future delivered, its re-queried
dataset size, the `get_client_hessian` entries (ChangedPercent,
ChangedMagnitude), and its `get_client_regular_loss` value. -/
structure ClientRound (α : Type) where
  name : Nat
  status : Bool
  weights : α
  datasize : Nat
  hessian : List (ℚ × ℚ)
  regularLoss : ℚ

/-- Lines 213-228: collect the Hessian entries of the benign (status false)
selected clients and average the percentages and magnitudes; the division by
the entry count has no guard, so an empty collection is an error (`none`). -/
def client_aggregate_hessian {α : Type} (selected : List (ClientRound α)) :
    Option (ℚ × ℚ) :=
  let benign := selected.filter (fun c => !c.status)
  let changed_percentage := benign.flatMap (fun c => c.hessian.map Prod.fst)
  let changed_magnitude := benign.flatMap (fun c => c.hessian.map Prod.snd)
  if changed_percentage.length = 0 then none
  else some (changed_percentage.sum / changed_percentage.length,
    changed_magnitude.sum / changed_magnitude.length)

/-- Lines 230-246: sum the regular losses of the benign selected clients and
divide by their number, unguarded (`none` on zero benign clients). -/
def client_aggregate_regular_loss {α : Type} (selected : List (ClientRound α)) :
    Option ℚ :=
  let benign := selected.filter (fun c => !c.status)
  if benign.length = 0 then none
  else some ((benign.map (fun c => c.regularLoss)).sum / benign.length)

/-- The coordinator-level round record, as constructed positionally at lines
450-452. The `FederatorRecord` class itself lives in `fltk/util/`
`data_container.py`, which is not under `src/`; the field names follow the
constructor call there and the access `records[-1].test_accuracy` at line
492. `M` is the confusion-matrix type. -/
structure FederatorRecord (M : Type) where
  num_selected : Nat
  round_id : Nat
  duration : ℚ
  test_loss : ℚ
  test_accuracy : ℚ
  mal_loss : ℚ
  mal_accuracy : ℚ
  mal_confidence : ℚ
  confusion_matrix : M

/-- Lines 426-440: the weight/size tables after the malicious-boost pass fed
to the configured aggregation method (`updated_model`). `agg` is the opaque
aggregation strategy chosen at configuration time. -/
def exec_round_updated_model {α : Type} (selected : List (ClientRound α))
    (boost : Nat) (t : Tables α) (agg : (Nat → α) → (Nat → Nat) → α) : α :=
  let t2 := (malBoostPass boost
    (selected.map (fun c => ⟨c.name, c.status⟩)) t).1
  agg t2.weights t2.sizes

/-- Lines 411-468 of `exec_round` after the collection barrier: boost pass,
aggregation, central clean and adversarial evaluation (opaque oracles `test`
returning (accuracy, loss, confusion matrix) and `malTest` returning
(accuracy, loss, confidence) applied to the updated model), record
construction, then the two benign diagnostics — whose unguarded divisions
abort the round before the record is appended to `records`. -/
def exec_round_tail {α M : Type} (round : Nat) (selected : List (ClientRound α))
    (boost : Nat) (duration : ℚ) (t : Tables α)
    (agg : (Nat → α) → (Nat → Nat) → α)
    (test : α → ℚ × ℚ × M) (malTest : α → ℚ × ℚ × ℚ)
    (records : List (FederatorRecord M)) :
    Except String (List (FederatorRecord M)) :=
  let u := exec_round_updated_model selected boost t agg
  let record : FederatorRecord M :=
    { num_selected := selected.length
      round_id := round
      duration := duration
      test_loss := (test u).2.1
      test_accuracy := (test u).1
      mal_loss := (malTest u).2.1
      mal_accuracy := (malTest u).1
      mal_confidence := (malTest u).2.2
      confusion_matrix := (test u).2.2 }
  match client_aggregate_hessian selected with
  | none => Except.error "ZeroDivisionError"
  | some _ =>
      match client_aggregate_regular_loss selected with
      | none => Except.error "ZeroDivisionError"
      | some _ => Except.ok (records ++ [record])

theorem hessian_isSome {α : Type} (selected : List (ClientRound α))
    (h : ∃ c ∈ selected, c.status = false ∧ c.hessian ≠ []) :
    (client_aggregate_hessian selected).isSome = true := by
  obtain ⟨c, hc, hstat, hhes⟩ := h
  rw [client_aggregate_hessian]
  have hmem : c ∈ selected.filter (fun c => !c.status) := by
    rw [List.mem_filter]
    exact ⟨hc, by simp [hstat]⟩
  obtain ⟨p, hp⟩ : ∃ p, p ∈ c.hessian := by
    cases hh : c.hessian with
    | nil => exact absurd hh hhes
    | cons a l => exact ⟨a, by simp [hh]⟩
  have hne : (selected.filter (fun c => !c.status)).flatMap
      (fun c => c.hessian.map Prod.fst) ≠ [] := by
    intro hnil
    have hpmem : p.1 ∈ (selected.filter (fun c => !c.status)).flatMap
        (fun c => c.hessian.map Prod.fst) := by
      rw [List.mem_flatMap]
      exact ⟨c, hmem, List.mem_map_of_mem _ hp⟩
    rw [hnil] at hpmem
    exact absurd hpmem (List.not_mem_nil _)
  have hlen : ((selected.filter (fun c => !c.status)).flatMap
      (fun c => c.hessian.map Prod.fst)).length ≠ 0 := by
    intro h0
    exact hne (List.eq_nil_of_length_eq_zero h0)
  simp only [hlen, if_false]
  rfl

theorem regular_loss_isSome {α : Type} (selected : List (ClientRound α))
    (h : ∃ c ∈ selected, c.status = false) :
    (client_aggregate_regular_loss selected).isSome = true := by
  obtain ⟨c, hc, hstat⟩ := h
  rw [client_aggregate_regular_loss]
  have hmem : c ∈ selected.filter (fun c => !c.status) := by
    rw [List.mem_filter]
    exact ⟨hc, by simp [hstat]⟩
  have hlen : (selected.filter (fun c => !c.status)).length ≠ 0 := by
    intro h0
    rw [List.eq_nil_of_length_eq_zero h0] at hmem
    exact absurd hmem (List.not_mem_nil _)
  simp only [hlen, if_false]
  rfl


/-- C9 (amended): the benign diagnostics are well-defined provided a benign
selected learner reports a nonempty Hessian list (Hessian averages) and at
least one selected learner is benign (regular-loss average); and for any
round in which every selected learner reports adversarial status, the round
fails with a division-by-zero error after aggregation and evaluation,
instead of completing — in particular no record is appended. -/
theorem c9_benign_diagnostics_division {α M : Type}
    (selected : List (ClientRound α)) (round boost : Nat) (duration : ℚ)
    (t : Tables α) (agg : (Nat → α) → (Nat → Nat) → α)
    (test : α → ℚ × ℚ × M) (malTest : α → ℚ × ℚ × ℚ)
    (records : List (FederatorRecord M)) :
    ((∃ c ∈ selected, c.status = false ∧ c.hessian ≠ []) →
      (client_aggregate_hessian selected).isSome = true) ∧
    ((∃ c ∈ selected, c.status = false) →
      (client_aggregate_regular_loss selected).isSome = true) ∧
    ((∀ c ∈ selected, c.status = true) →
      exec_round_tail round selected boost duration t agg test malTest records =
        Except.error "ZeroDivisionError") := by
  refine ⟨hessian_isSome selected, regular_loss_isSome selected, ?_⟩
  intro hall
  have hfilter : selected.filter (fun c => !c.status) = [] := by
    rw [List.filter_eq_nil_iff]
    intro c hc
    simp [hall c hc]
  have hhes : client_aggregate_hessian selected = none := by
    rw [client_aggregate_hessian]
    simp [hfilter]
  simp only [exec_round_tail, hhes]

/-- A selected population with one benign learner reporting an empty Hessian
list. -/
def c9Sel : List (ClientRound Nat) := [⟨1, false, 0, 0, [], 2⟩]

/-- Counterexample to C9 as stated: one selected learner is benign, yet the
Hessian average divides by zero (`none`), because the divisor is the number
of reported Hessian entries of benign learners, not the number of benign
learners — an empty report breaks the average despite a benign learner being
present. -/
theorem c9_benign_diagnostics_division_counterexample :
    ((c9Sel.filter (fun c => !c.status)).length = 1) ∧
    client_aggregate_hessian c9Sel = none := ⟨rfl, rfl⟩

/-- A round in which every selected learner reports adversarial status. -/
def c9AllMal : List (ClientRound Nat) := [⟨1, true, 0, 0, [(1, 1)], 2⟩]

/-- Opaque concrete weight/size tables for round-tail evaluations. -/
def oraTables : Tables Nat := { weights := fun n => n, sizes := fun n => n }

/-- Opaque concrete aggregation strategy for round-tail evaluations. -/
def oraAgg : (Nat → Nat) → (Nat → Nat) → Nat := fun w s => w 0 + s 0

/-- Opaque concrete clean-test oracle: (accuracy, loss, confusion matrix). -/
def oraTest : Nat → ℚ × ℚ × Nat := fun _ => (1, 2, 9)

/-- Opaque concrete adversarial-test oracle: (accuracy, loss, confidence). -/
def oraMalTest : Nat → ℚ × ℚ × ℚ := fun _ => (3, 4, 5)

/-- Witness for C9 at a concrete all-adversarial round: the round aborts with
the division-by-zero error. -/
theorem c9_benign_diagnostics_division_witness :
    exec_round_tail 0 c9AllMal 1 3 oraTables oraAgg oraTest oraMalTest [] =
      Except.error "ZeroDivisionError" :=
  (c9_benign_diagnostics_division c9AllMal 0 1 3 oraTables oraAgg oraTest
    oraMalTest []).2.2 (by decide)

/-- C6 (amended): every round whose benign diagnostics are defined appends
exactly one coordinator record, capturing the number of selected learners,
the round index, the round duration, the clean evaluation loss and accuracy,
the adversarial evaluation loss, accuracy and confidence, and the confusion
matrix — and nothing else: in particular neither the number of flagged
selected learners nor the Hessian-drift and regular-loss diagnostics are
fields of the record (they are only computed, printed, and conditionally
sent to wandb). -/
theorem c6_round_record {α M : Type} (round : Nat)
    (selected : List (ClientRound α)) (boost : Nat) (duration : ℚ)
    (t : Tables α) (agg : (Nat → α) → (Nat → Nat) → α)
    (test : α → ℚ × ℚ × M) (malTest : α → ℚ × ℚ × ℚ)
    (records : List (FederatorRecord M))
    (hh : (client_aggregate_hessian selected).isSome = true)
    (hr : (client_aggregate_regular_loss selected).isSome = true) :
    exec_round_tail round selected boost duration t agg test malTest records =
      Except.ok (records ++ [{
        num_selected := selected.length
        round_id := round
        duration := duration
        test_loss := (test (exec_round_updated_model selected boost t agg)).2.1
        test_accuracy := (test (exec_round_updated_model selected boost t agg)).1
        mal_loss := (malTest (exec_round_updated_model selected boost t agg)).2.1
        mal_accuracy := (malTest (exec_round_updated_model selected boost t agg)).1
        mal_confidence := (malTest (exec_round_updated_model selected boost t agg)).2.2
        confusion_matrix := (test (exec_round_updated_model selected boost t agg)).2.2 }]) := by
  obtain ⟨v, hv⟩ := Option.isSome_iff_exists.mp hh
  obtain ⟨w, hw⟩ := Option.isSome_iff_exists.mp hr
  simp only [exec_round_tail, hv, hw]

/-- Round population for the C6 counterexample: learner 2 flagged. -/
def c6SelA : List (ClientRound Nat) :=
  [⟨1, false, 5, 10, [(1, 1)], 2⟩, ⟨2, true, 7, 20, [(1, 1)], 3⟩]

/-- Round population identical to `c6SelA` except learner 2 is benign. -/
def c6SelB : List (ClientRound Nat) :=
  [⟨1, false, 5, 10, [(1, 1)], 2⟩, ⟨2, false, 7, 20, [(1, 1)], 3⟩]

/-- Counterexample to C6 as stated: two rounds that differ in the number of
flagged-malicious selected learners (one vs zero) — and hence also in the
benign diagnostic averages — append the identical record: the record does
not capture the flagged count, the Hessian-drift means, or the mean benign
regular loss. -/
theorem c6_round_record_counterexample :
    malThisRound (c6SelA.map (fun c => ⟨c.name, c.status⟩)) ≠
      malThisRound (c6SelB.map (fun c => ⟨c.name, c.status⟩)) ∧
    exec_round_tail 0 c6SelA 1 3 oraTables oraAgg oraTest oraMalTest [] =
      exec_round_tail 0 c6SelB 1 3 oraTables oraAgg oraTest oraMalTest [] :=
  ⟨by decide, rfl⟩

/-- Witness for the amended C6 at a concrete round: exactly one record is
appended, with the evaluation results and round metadata as fields. -/
theorem c6_round_record_witness :
    exec_round_tail 1 c6SelA 1 3 oraTables oraAgg oraTest oraMalTest [] =
      Except.ok [(⟨2, 1, 3, 2, 1, 4, 3, 5, 9⟩ : FederatorRecord Nat)] := by
  have h := c6_round_record 1 c6SelA 1 3 oraTables oraAgg oraTest oraMalTest []
    rfl rfl
  rw [h]
  rfl

end RFLWBC
